import Mathlib

/-!
Shallow embedding of the Minesweeper AI (`minesweeper.py`): the `Sentence`
logical representation, the `MinesweeperAI` knowledge base with its
`add_knowledge` inference fixpoint loop, and the move-selection queries.

Board cells are integer coordinate pairs.  Python `set`s become `Finset`s,
Python `int` becomes `ℤ`, the mutable `MinesweeperAI` object becomes an
explicit `AI` state record threaded through the operations, and the
unbounded `while True` inference loop becomes a fuel-indexed recursion
(`inference_loop`) returning `Option` — `none` models fuel exhaustion, and
termination of the Python loop is proved as the statement that a concrete
fuel bound always suffices.
-/

deriving instance DecidableEq for Except

abbrev Cell := ℤ × ℤ

/-- Lexicographic order on cells, used to enumerate a Python `set` of cells
deterministically (Python's own set-iteration order is arbitrary). -/
def cellLe (a b : Cell) : Prop := a.1 < b.1 ∨ (a.1 = b.1 ∧ a.2 ≤ b.2)

instance : DecidableRel cellLe := fun a b => by
  unfold cellLe; infer_instance

instance : IsTrans Cell cellLe :=
  ⟨by intro a b c h1 h2; unfold cellLe at *; omega⟩

instance : IsAntisymm Cell cellLe :=
  ⟨by
    intro a b h1 h2
    unfold cellLe at *
    have h3 : a.1 = b.1 ∧ a.2 = b.2 := by omega
    exact Prod.ext h3.1 h3.2⟩

instance : IsTotal Cell cellLe :=
  ⟨by intro a b; unfold cellLe; omega⟩

/-- Insert a cell into a `cellLe`-sorted list. -/
def insertCell (c : Cell) : List Cell → List Cell
  | [] => [c]
  | d :: l => if cellLe c d then c :: d :: l else d :: insertCell c l

/-- Insertion sort by `cellLe` (structurally recursive, so concrete runs
reduce inside the kernel). -/
def insertionSort : List Cell → List Cell
  | [] => []
  | c :: l => insertCell c (insertionSort l)

theorem insertCell_comm (a b : Cell) (l : List Cell) :
    insertCell a (insertCell b l) = insertCell b (insertCell a l) := by
  have htot : ∀ x y : Cell, cellLe x y ∨ cellLe y x := by
    intro x y; unfold cellLe; omega
  have htrans : ∀ x y z : Cell, cellLe x y → cellLe y z → cellLe x z := by
    intro x y z h1 h2; unfold cellLe at *; omega
  have hanti : ∀ x y : Cell, cellLe x y → cellLe y x → x = y := by
    intro x y h1 h2
    unfold cellLe at h1 h2
    have h3 : x.1 = y.1 ∧ x.2 = y.2 := by omega
    exact Prod.ext h3.1 h3.2
  rcases eq_or_ne a b with rfl | hne
  · rfl
  induction l with
  | nil =>
    by_cases hab : cellLe a b
    · have hba : ¬ cellLe b a := fun h => hne (hanti _ _ hab h)
      simp [insertCell, hab, hba]
    · have hba : cellLe b a := (htot a b).resolve_left hab
      simp [insertCell, hab, hba]
  | cons d l ih =>
    by_cases had : cellLe a d <;> by_cases hbd : cellLe b d
    · by_cases hab : cellLe a b
      · have hba : ¬ cellLe b a := fun h => hne (hanti _ _ hab h)
        simp [insertCell, had, hbd, hab, hba]
      · have hba : cellLe b a := (htot a b).resolve_left hab
        simp [insertCell, had, hbd, hab, hba]
    · have hba : ¬ cellLe b a := fun h => hbd (htrans _ _ _ h had)
      simp [insertCell, had, hbd, hba]
    · have hab : ¬ cellLe a b := fun h => had (htrans _ _ _ h hbd)
      simp [insertCell, had, hbd, hab]
    · simp [insertCell, had, hbd, ih]

theorem insertionSort_perm_eq {l1 l2 : List Cell} (h : l1.Perm l2) :
    insertionSort l1 = insertionSort l2 := by
  induction h with
  | nil => rfl
  | cons x _ ih => simp [insertionSort, ih]
  | swap x y l => simp [insertionSort, insertCell_comm]
  | trans _ _ ih1 ih2 => exact ih1.trans ih2

/-- Deterministic enumeration of a finite set of cells. -/
def cellList (s : Finset Cell) : List Cell :=
  Quot.liftOn s.val insertionSort (fun _ _ h => insertionSort_perm_eq h)

theorem mem_insertCell {x c : Cell} {l : List Cell} :
    x ∈ insertCell c l ↔ x = c ∨ x ∈ l := by
  induction l with
  | nil => simp [insertCell]
  | cons d l ih =>
    by_cases h : cellLe c d
    · simp [insertCell, h]
    · simp only [insertCell, h, if_false, List.mem_cons, ih]
      tauto

theorem mem_insertionSort {x : Cell} {l : List Cell} :
    x ∈ insertionSort l ↔ x ∈ l := by
  induction l with
  | nil => simp [insertionSort]
  | cons c l ih => simp [insertionSort, mem_insertCell, ih]

theorem mem_cellList {x : Cell} {s : Finset Cell} :
    x ∈ cellList s ↔ x ∈ s := by
  rcases s with ⟨val, nd⟩
  induction val using Quot.inductionOn with
  | h l => simpa [cellList] using mem_insertionSort

theorem cellList_eq_nil_iff {s : Finset Cell} : cellList s = [] ↔ s = ∅ := by
  rcases s with ⟨val, nd⟩
  induction val using Quot.inductionOn with
  | h l =>
    cases l with
    | nil => simp [cellList, insertionSort]; rfl
    | cons c l =>
      simp only [cellList, Quot.liftOn, insertionSort]
      constructor
      · intro h
        cases hl : insertionSort l with
        | nil => rw [hl] at h; simp [insertCell] at h
        | cons d t => rw [hl] at h; by_cases hcd : cellLe c d <;>
            simp [insertCell, hcd] at h
      · intro h
        exact absurd (congrArg Finset.card h) (by simp)

/-- `Sentence(cells, count)`: a set of board cells and a count of how many
of those cells are mines. -/
structure Sentence where
  cells : Finset Cell
  count : ℤ
deriving DecidableEq

namespace Sentence

/-- `known_mines`: `self.cells if self.count == len(self.cells) else set()`. -/
def known_mines (s : Sentence) : Finset Cell :=
  if s.count = (s.cells.card : ℤ) then s.cells else ∅

/-- `known_safes`: `self.cells if self.count == 0 else set()`. -/
def known_safes (s : Sentence) : Finset Cell :=
  if s.count = 0 then s.cells else ∅

/-- `mark_mine`: if the cell is present, remove it and decrement the count. -/
def mark_mine (s : Sentence) (cell : Cell) : Sentence :=
  if cell ∈ s.cells then ⟨s.cells.erase cell, s.count - 1⟩ else s

/-- `mark_safe`: if the cell is present, remove it (count unchanged). -/
def mark_safe (s : Sentence) (cell : Cell) : Sentence :=
  if cell ∈ s.cells then ⟨s.cells.erase cell, s.count⟩ else s

end Sentence

/-- The `MinesweeperAI` state: board bounds, the clicked cells, the proven
mines and safes, and the list of sentences. -/
structure AI where
  height : ℤ
  width : ℤ
  moves_made : Finset Cell
  mines : Finset Cell
  safes : Finset Cell
  knowledge : List Sentence
deriving DecidableEq

/-- `MinesweeperAI.__init__(height, width)`. -/
def AI.init (height width : ℤ) : AI :=
  ⟨height, width, ∅, ∅, ∅, []⟩

/-- `MinesweeperAI.mark_mine`: add to `mines` and propagate to every sentence. -/
def AI.mark_mine (ai : AI) (cell : Cell) : AI :=
  { ai with
    mines := insert cell ai.mines
    knowledge := ai.knowledge.map (fun s => s.mark_mine cell) }

/-- `MinesweeperAI.mark_safe`: add to `safes` and propagate to every sentence. -/
def AI.mark_safe (ai : AI) (cell : Cell) : AI :=
  { ai with
    safes := insert cell ai.safes
    knowledge := ai.knowledge.map (fun s => s.mark_safe cell) }

/-- The set comprehension of `add_knowledge` step 3: all in-bounds cells with
both coordinates within one of `cell`, minus `cell` itself. -/
def adjacent_cells (ai : AI) (cell : Cell) : Finset Cell :=
  (((Finset.Icc (cell.1 - 1) (cell.1 + 1)) ×ˢ (Finset.Icc (cell.2 - 1) (cell.2 + 1))).filter
    (fun p => 0 ≤ p.1 ∧ p.1 < ai.height ∧ 0 ≤ p.2 ∧ p.2 < ai.width)) \ {cell}

/-- `unclicked_adjacent_cells = adjacent_cells - self.moves_made`. -/
def new_sentence_cells (ai : AI) (cell : Cell) : Finset Cell :=
  adjacent_cells ai cell \ ai.moves_made

/-- Steps 1 and 2 of `add_knowledge`: record the move, mark the revealed cell
safe, and propagate `mark_safe` through every sentence. -/
def record_move (ai : AI) (cell : Cell) : AI :=
  { ai with
    moves_made := insert cell ai.moves_made
    safes := insert cell ai.safes
    knowledge := ai.knowledge.map (fun s => s.mark_safe cell) }

/-- The `unmarked_mines` accumulation of `update_knowledge`. -/
def facts_mines (scan : List Sentence) : Finset Cell :=
  scan.foldl (fun acc s => acc ∪ s.known_mines) ∅

/-- The `unmarked_safes` accumulation of `update_knowledge`. -/
def facts_safes (scan : List Sentence) : Finset Cell :=
  scan.foldl (fun acc s => acc ∪ s.known_safes) ∅

/-- The mutation phase of `update_knowledge`: union the discovered facts into
`mines`/`safes`, then call the AI-level mark operations for each cell. -/
def apply_marks (ai : AI) (um us : Finset Cell) : AI :=
  let ai1 := { ai with mines := ai.mines ∪ um, safes := ai.safes ∪ us }
  let ai2 := (cellList um).foldl AI.mark_mine ai1
  (cellList us).foldl AI.mark_safe ai2

/-- The inner helper `update_knowledge(sentence_list)` of `add_knowledge`:
scan the given sentences for resolved facts; if none, report no change,
otherwise apply all the marks and report a change.  The Python helper reads
the scanned sentences before any mutation, so passing their values is
faithful. -/
def update_knowledge (ai : AI) (scan : List Sentence) : AI × Bool :=
  if (facts_mines scan).card + (facts_safes scan).card = 0 then (ai, false)
  else (apply_marks ai (facts_mines scan) (facts_safes scan), true)

/-- The subset-inference pass: for each ordered pair of sentences with
`left.cells` a strict subset of `right.cells`, derive
`(right.cells - left.cells, right.count - left.count)`.  Pairs with equal
cell sets (including a sentence with itself) fail the strict-subset test,
so iterating over all pairs matches `itertools.permutations(knowledge, 2)`. -/
def subset_infer (K : List Sentence) : List Sentence :=
  K.flatMap (fun left =>
    K.flatMap (fun right =>
      if left.cells ⊂ right.cells then
        [⟨right.cells \ left.cells, right.count - left.count⟩] else []))

/-- The `while True` loop of `add_knowledge`, with explicit fuel:
pass A scans all of `knowledge`; if it changed something, run subset
inference, append the derived sentences, and scan only those (pass B);
stop as soon as a pass reports no change. -/
def inference_loop : ℕ → AI → Option AI
  | 0, _ => none
  | fuel + 1, ai =>
    match update_knowledge ai ai.knowledge with
    | (ai1, false) => some ai1
    | (ai1, true) =>
      let news := subset_infer ai1.knowledge
      let ai2 := { ai1 with knowledge := ai1.knowledge ++ news }
      match update_knowledge ai2 news with
      | (ai3, false) => some ai3
      | (ai3, true) => inference_loop fuel ai3

/-- Union of the cell sets of all sentences in a knowledge list: the
"undetermined cell-slot" pool that bounds the loop. -/
def cellsUnion (K : List Sentence) : Finset Cell :=
  K.foldr (fun s acc => s.cells ∪ acc) ∅

/-- `add_knowledge(cell, count)`: record the move, append the new sentence
over the unclicked neighbours, then run the inference loop.  The fuel
`(cellsUnion …).card + 1` is proved sufficient below, so the `Option` is
always `some`. -/
def add_knowledge (ai : AI) (cell : Cell) (count : ℤ) : Option AI :=
  let ai2 := record_move ai cell
  let ai3 := { ai2 with
    knowledge := ai2.knowledge ++ [⟨new_sentence_cells ai2 cell, count⟩] }
  inference_loop ((cellsUnion ai3.knowledge).card + 1) ai3

/-- Run a sequence of `add_knowledge` calls from a starting state. -/
def run_calls (ai : AI) : List (Cell × ℤ) → Option AI
  | [] => some ai
  | (c, n) :: rest =>
    match add_knowledge ai c n with
    | some ai2 => run_calls ai2 rest
    | none => none

/-- `make_safe_move`: some element of `safes - moves_made` if non-empty,
else `None`.  `next(iter(...))` is modelled by the head of the set's
enumeration. -/
def make_safe_move (ai : AI) : Option Cell :=
  (cellList (ai.safes \ ai.moves_made)).head?

/-- `itertools.product(range(self.height), range(self.width))`. -/
def all_cells (ai : AI) : Finset Cell :=
  Finset.Icc 0 (ai.height - 1) ×ˢ Finset.Icc 0 (ai.width - 1)

/-- `make_random_move`: `random.sample(possible_set, 1)[0]`.  The `.error`
branch models the `ValueError` that `random.sample` raises when the
population is smaller than the sample size; otherwise some member of the
pool is returned (which member is random in Python). -/
def make_random_move (ai : AI) : Except String Cell :=
  match cellList ((all_cells ai \ ai.moves_made) \ ai.mines) with
  | [] => Except.error "Sample larger than population"
  | c :: _ => Except.ok c

/-- The true neighbour-mine count of a cell, for a board whose mine set is
`board` (what `Minesweeper.nearby_mines` returns). -/
def true_count (ai : AI) (board : Finset Cell) (cell : Cell) : ℤ :=
  ((adjacent_cells ai cell ∩ board).card : ℤ)

/-- The caller contract of `add_knowledge`, relative to the actual mine set
`board`: every revealed cell is not a mine, was not revealed before, and
comes with its accurate neighbour-mine count. -/
def accurate_calls (board : Finset Cell) : AI → List (Cell × ℤ) → Bool
  | _, [] => true
  | ai, (c, n) :: rest =>
    decide (c ∉ board) && decide (c ∉ ai.moves_made) &&
    decide (n = true_count ai board c) &&
    (match add_knowledge ai c n with
     | none => true
     | some ai2 => accurate_calls board ai2 rest)

/-! ## Helper lemmas -/

theorem head?_mem_cellList {s : Finset Cell} {c : Cell}
    (h : (cellList s).head? = some c) : c ∈ s := by
  apply mem_cellList.mp
  cases hl : cellList s with
  | nil => rw [hl] at h; cases h
  | cons d t =>
    rw [hl] at h
    simp only [List.head?_cons, Option.some.injEq] at h
    rw [← h]
    exact List.mem_cons_self d t

/-! ## Claim theorems: the `Sentence` queries and mutators -/

/-- C4: for every sentence, `known_mines` returns exactly the cell set when
`count` equals the number of cells and the empty set otherwise, and
`known_safes` returns exactly the cell set when `count` is zero and the
empty set otherwise.  Both are pure queries: in this embedding they are
plain functions of the sentence and return only a set, leaving the
sentence untouched by construction. -/
theorem known_mines_known_safes_spec (s : Sentence) :
    (s.count = (s.cells.card : ℤ) → s.known_mines = s.cells) ∧
    (s.count ≠ (s.cells.card : ℤ) → s.known_mines = ∅) ∧
    (s.count = 0 → s.known_safes = s.cells) ∧
    (s.count ≠ 0 → s.known_safes = ∅) := by
  refine ⟨?_, ?_, ?_, ?_⟩ <;> intro h <;>
    simp [Sentence.known_mines, Sentence.known_safes, h]

/-- Witness for C4 at the concrete sentence `({(0,0)}, 1)`. -/
theorem known_mines_known_safes_spec_witness :
    Sentence.known_mines ⟨{((0 : ℤ), (0 : ℤ))}, 1⟩ = {((0 : ℤ), (0 : ℤ))} ∧
    Sentence.known_safes ⟨{((0 : ℤ), (0 : ℤ))}, 1⟩ = ∅ :=
  ⟨(known_mines_known_safes_spec ⟨{((0 : ℤ), (0 : ℤ))}, 1⟩).1 (by decide),
   (known_mines_known_safes_spec ⟨{((0 : ℤ), (0 : ℤ))}, 1⟩).2.2.2 (by decide)⟩

/-- C5: `Sentence.mark_mine` on a present cell removes it and decrements the
count, `Sentence.mark_safe` removes it and keeps the count; on an absent
cell both are no-ops. -/
theorem sentence_mark_spec (s : Sentence) (c : Cell) :
    (c ∈ s.cells →
      s.mark_mine c = ⟨s.cells.erase c, s.count - 1⟩ ∧
      s.mark_safe c = ⟨s.cells.erase c, s.count⟩) ∧
    (c ∉ s.cells → s.mark_mine c = s ∧ s.mark_safe c = s) := by
  constructor <;> intro h <;>
    simp [Sentence.mark_mine, Sentence.mark_safe, h]

/-- Witness for C5 at the sentence `({(0,0)}, 1)` with a present cell
`(0,0)` and an absent cell `(1,1)`. -/
theorem sentence_mark_spec_witness :
    ((0, 0) : Cell) ∈ ({((0 : ℤ), (0 : ℤ))} : Finset Cell) ∧
    Sentence.mark_mine ⟨{((0 : ℤ), (0 : ℤ))}, 1⟩ (0, 0) =
      ⟨({((0 : ℤ), (0 : ℤ))} : Finset Cell).erase (0, 0), 1 - 1⟩ ∧
    ((1, 1) : Cell) ∉ ({((0 : ℤ), (0 : ℤ))} : Finset Cell) ∧
    Sentence.mark_safe ⟨{((0 : ℤ), (0 : ℤ))}, 1⟩ (1, 1) = ⟨{((0 : ℤ), (0 : ℤ))}, 1⟩ :=
  ⟨by decide,
   ((sentence_mark_spec ⟨{((0 : ℤ), (0 : ℤ))}, 1⟩ (0, 0)).1 (by decide)).1,
   by decide,
   ((sentence_mark_spec ⟨{((0 : ℤ), (0 : ℤ))}, 1⟩ (1, 1)).2 (by decide)).2⟩

/-- C6: both mark operations are idempotent, on a single sentence and on the
whole knowledge base. -/
theorem mark_idempotent (s : Sentence) (ai : AI) (c : Cell) :
    (s.mark_mine c).mark_mine c = s.mark_mine c ∧
    (s.mark_safe c).mark_safe c = s.mark_safe c ∧
    (ai.mark_mine c).mark_mine c = ai.mark_mine c ∧
    (ai.mark_safe c).mark_safe c = ai.mark_safe c := by
  have hm : ∀ t : Sentence, (t.mark_mine c).mark_mine c = t.mark_mine c := by
    intro t
    by_cases h : c ∈ t.cells <;>
      simp [Sentence.mark_mine, h, Finset.not_mem_erase]
  have hs : ∀ t : Sentence, (t.mark_safe c).mark_safe c = t.mark_safe c := by
    intro t
    by_cases h : c ∈ t.cells <;>
      simp [Sentence.mark_safe, h, Finset.not_mem_erase]
  refine ⟨hm s, hs s, ?_, ?_⟩
  · cases ai
    simp only [AI.mark_mine, Finset.insert_idem, List.map_map, AI.mk.injEq,
      true_and, and_true]
    exact List.map_congr_left fun t _ => hm t
  · cases ai
    simp only [AI.mark_safe, Finset.insert_idem, List.map_map, AI.mk.injEq,
      true_and, and_true]
    exact List.map_congr_left fun t _ => hs t

/-! ## Claim theorems: move selection -/

/-- C9: `make_safe_move` returns a member of `safes - moves_made` when that
set is non-empty (hence never a cell already played) and `None` when it is
empty.  In this embedding the query is a plain function of the state — it
cannot mutate anything, and two consecutive calls on the same state are the
same term, so they trivially agree. -/
theorem make_safe_move_spec (ai : AI) :
    (ai.safes \ ai.moves_made = ∅ → make_safe_move ai = none) ∧
    ((ai.safes \ ai.moves_made).Nonempty → ∃ c, make_safe_move ai = some c) ∧
    (∀ c, make_safe_move ai = some c → c ∈ ai.safes ∧ c ∉ ai.moves_made) := by
  refine ⟨?_, ?_, ?_⟩
  · intro h
    unfold make_safe_move
    rw [cellList_eq_nil_iff.mpr h]
    rfl
  · intro h
    cases hl : cellList (ai.safes \ ai.moves_made) with
    | nil =>
      exact absurd (cellList_eq_nil_iff.mp hl)
        (Finset.nonempty_iff_ne_empty.mp h)
    | cons c t =>
      refine ⟨c, ?_⟩
      unfold make_safe_move
      rw [hl]
      rfl
  · intro c h
    have hmem : c ∈ ai.safes \ ai.moves_made := head?_mem_cellList h
    exact Finset.mem_sdiff.mp hmem

/-- Witness for C9: the empty branch at a fresh AI, and the non-empty branch
at a state with one known safe unplayed cell. -/
theorem make_safe_move_spec_witness :
    make_safe_move (AI.init 1 1) = none ∧
    (∃ c, make_safe_move ⟨1, 1, ∅, ∅, {((0 : ℤ), (0 : ℤ))}, []⟩ = some c) :=
  ⟨(make_safe_move_spec (AI.init 1 1)).1 (by decide),
   (make_safe_move_spec ⟨1, 1, ∅, ∅, {((0 : ℤ), (0 : ℤ))}, []⟩).2.1
     ⟨(0, 0), by decide⟩⟩

/-- C1 (code bug): on the 1×1 board, after the single legitimate call
`add_knowledge((0,0), 0)` the candidate pool
`(all board coordinates) - moves_made - mines` is empty, and
`make_random_move` hits the `random.sample` call with a population smaller
than the sample size, i.e. it raises `ValueError` (the `.error` branch of
the embedding) instead of returning the explicit "no move available"
result the spec demands. -/
theorem make_random_move_empty_pool_raises :
    run_calls (AI.init 1 1) [((0, 0), 0)] =
      some ⟨1, 1, {(0, 0)}, ∅, {(0, 0)}, [⟨∅, 0⟩]⟩ ∧
    ((all_cells ⟨1, 1, {(0, 0)}, ∅, {(0, 0)}, [⟨∅, 0⟩]⟩ \
      ({((0 : ℤ), (0 : ℤ))} : Finset Cell)) \ (∅ : Finset Cell)) = ∅ ∧
    make_random_move ⟨1, 1, {(0, 0)}, ∅, {(0, 0)}, [⟨∅, 0⟩]⟩ =
      Except.error "Sample larger than population" := by
  refine ⟨by decide, by decide, by decide⟩

/-- C10: the spec's 2×2 scenario.  With the single mine at `(0,0)` (so both
revealed counts are accurate), `add_knowledge((1,1), 1)` appends exactly the
sentence `({(0,0),(0,1),(1,0)}, 1)`, and after the further call
`add_knowledge((0,1), 1)` the final state has `safes ⊇ {(1,1),(0,1)}` and
`mines` still empty. -/
theorem two_by_two_scenario :
    accurate_calls {((0 : ℤ), (0 : ℤ))} (AI.init 2 2)
      [((1, 1), 1), ((0, 1), 1)] = true ∧
    run_calls (AI.init 2 2) [((1, 1), 1)] =
      some ⟨2, 2, {(1, 1)}, ∅, {(1, 1)}, [⟨{(0, 0), (0, 1), (1, 0)}, 1⟩]⟩ ∧
    run_calls (AI.init 2 2) [((1, 1), 1), ((0, 1), 1)] =
      some ⟨2, 2, {(0, 1), (1, 1)}, ∅, {(0, 1), (1, 1)},
        [⟨{(0, 0), (1, 0)}, 1⟩, ⟨{(0, 0), (1, 0)}, 1⟩]⟩ ∧
    ({((1 : ℤ), (1 : ℤ)), ((0 : ℤ), (1 : ℤ))} : Finset Cell) ⊆
      ({(1, 1), (0, 1)} : Finset Cell) := by
  refine ⟨by decide, by decide, by decide, by decide⟩

/-- C2 (code bug): the inference loop can return before reaching the claimed
fixpoint.  On a 3×3 board with the single mine at `(0,1)`, after the two
accurate calls `add_knowledge((0,0), 1)` and `add_knowledge((1,1), 1)` the
loop exits (its first closure pass found no facts, so the subset-inference
pass of that iteration never ran), yet the final knowledge list still
contains a strict-subset pair whose derived sentence
`({(0,2),(1,2),(2,0),(2,1),(2,2)}, 0)` would immediately yield new safe
cells such as `(0,2)` — so one more subset-inference + closure pass would
produce new facts, contradicting the claim. -/
theorem add_knowledge_returns_before_fixpoint :
    accurate_calls {((0 : ℤ), (1 : ℤ))} (AI.init 3 3)
      [((0, 0), 1), ((1, 1), 1)] = true ∧
    run_calls (AI.init 3 3) [((0, 0), 1), ((1, 1), 1)] =
      some ⟨3, 3, {(1, 1), (0, 0)}, ∅, {(1, 1), (0, 0)},
        [⟨{(0, 1), (1, 0)}, 1⟩,
         ⟨{(0, 1), (0, 2), (1, 0), (1, 2), (2, 0), (2, 1), (2, 2)}, 1⟩]⟩ ∧
    (⟨{(0, 2), (1, 2), (2, 0), (2, 1), (2, 2)}, 0⟩ : Sentence) ∈
      subset_infer
        [⟨{(0, 1), (1, 0)}, 1⟩,
         ⟨{(0, 1), (0, 2), (1, 0), (1, 2), (2, 0), (2, 1), (2, 2)}, 1⟩] ∧
    (Sentence.known_safes ⟨{(0, 2), (1, 2), (2, 0), (2, 1), (2, 2)}, 0⟩ =
      {(0, 2), (1, 2), (2, 0), (2, 1), (2, 2)}) ∧
    ((0, 2) : Cell) ∉ ({((0 : ℤ), (0 : ℤ)), ((1 : ℤ), (1 : ℤ))} : Finset Cell) := by
  refine ⟨by decide, by decide, by decide, by decide, by decide⟩

/-- C3 (code bug): step 3 of `add_knowledge` subtracts only `moves_made`
from the neighbour set — not `safes` or `mines` — contradicting both the
claim and the code's own comment ("only include cells whose state is still
undetermined").  On a mine-free 1×3 board, after the accurate call
`add_knowledge((0,0), 0)` the cell `(0,1)` is already in `safes` (and not
in `moves_made`); at the next call `add_knowledge((0,2), 0)`, right after
steps 1–2 (`record_move`), the sentence that step 3 appends has cell set
`new_sentence_cells … = {(0,1)}`, containing that already-proven-safe
cell at insertion time. -/
theorem sentence_inserted_with_known_safe_cell :
    accurate_calls (∅ : Finset Cell) (AI.init 1 3)
      [((0, 0), 0), ((0, 2), 0)] = true ∧
    run_calls (AI.init 1 3) [((0, 0), 0)] =
      some ⟨1, 3, {(0, 0)}, ∅, {(0, 0), (0, 1)}, [⟨∅, 0⟩]⟩ ∧
    ((0, 1) : Cell) ∈
      (record_move ⟨1, 3, {(0, 0)}, ∅, {(0, 0), (0, 1)}, [⟨∅, 0⟩]⟩ (0, 2)).safes ∧
    ((0, 1) : Cell) ∉
      (record_move ⟨1, 3, {(0, 0)}, ∅, {(0, 0), (0, 1)}, [⟨∅, 0⟩]⟩ (0, 2)).moves_made ∧
    new_sentence_cells
      (record_move ⟨1, 3, {(0, 0)}, ∅, {(0, 0), (0, 1)}, [⟨∅, 0⟩]⟩ (0, 2)) (0, 2) =
      {((0 : ℤ), (1 : ℤ))} := by
  refine ⟨by decide, by decide, by decide, by decide, by decide⟩

/-! ## Termination of the inference loop (C8) -/

theorem mark_mine_cells (s : Sentence) (c : Cell) :
    (s.mark_mine c).cells = s.cells.erase c := by
  by_cases h : c ∈ s.cells <;>
    simp [Sentence.mark_mine, h, Finset.erase_eq_of_not_mem]

theorem mark_safe_cells (s : Sentence) (c : Cell) :
    (s.mark_safe c).cells = s.cells.erase c := by
  by_cases h : c ∈ s.cells <;>
    simp [Sentence.mark_safe, h, Finset.erase_eq_of_not_mem]

theorem cellsUnion_map_mark_mine (K : List Sentence) (c : Cell) :
    cellsUnion (K.map (fun s => s.mark_mine c)) = (cellsUnion K).erase c := by
  induction K with
  | nil => simp [cellsUnion]
  | cons s K ih =>
    unfold cellsUnion at *
    simp only [List.map_cons, List.foldr_cons, mark_mine_cells]
    rw [ih, Finset.erase_union_distrib]

theorem cellsUnion_map_mark_safe (K : List Sentence) (c : Cell) :
    cellsUnion (K.map (fun s => s.mark_safe c)) = (cellsUnion K).erase c := by
  induction K with
  | nil => simp [cellsUnion]
  | cons s K ih =>
    unfold cellsUnion at *
    simp only [List.map_cons, List.foldr_cons, mark_safe_cells]
    rw [ih, Finset.erase_union_distrib]

theorem cellList_toFinset (s : Finset Cell) : (cellList s).toFinset = s := by
  ext c
  simp [List.mem_toFinset, mem_cellList]

theorem foldl_erase_eq_sdiff (L : List Cell) (u : Finset Cell) :
    L.foldl (fun v c => v.erase c) u = u \ L.toFinset := by
  induction L generalizing u with
  | nil => simp
  | cons c L ih =>
    rw [List.foldl_cons, ih, List.toFinset_cons]
    ext x
    simp only [Finset.mem_sdiff, Finset.mem_erase, Finset.mem_insert]
    tauto

theorem foldl_mark_mine_knowledge (L : List Cell) (ai : AI) :
    (L.foldl AI.mark_mine ai).knowledge =
      L.foldl (fun K c => K.map (fun s => s.mark_mine c)) ai.knowledge := by
  induction L generalizing ai with
  | nil => rfl
  | cons c L ih => simp only [List.foldl_cons, ih]; rfl

theorem foldl_mark_safe_knowledge (L : List Cell) (ai : AI) :
    (L.foldl AI.mark_safe ai).knowledge =
      L.foldl (fun K c => K.map (fun s => s.mark_safe c)) ai.knowledge := by
  induction L generalizing ai with
  | nil => rfl
  | cons c L ih => simp only [List.foldl_cons, ih]; rfl

theorem cellsUnion_foldl_map_mark_mine (L : List Cell) (K : List Sentence) :
    cellsUnion (L.foldl (fun K c => K.map (fun s => s.mark_mine c)) K) =
      cellsUnion K \ L.toFinset := by
  induction L generalizing K with
  | nil => simp
  | cons c L ih =>
    rw [List.foldl_cons, ih, cellsUnion_map_mark_mine, List.toFinset_cons]
    ext x
    simp only [Finset.mem_sdiff, Finset.mem_erase, Finset.mem_insert]
    tauto

theorem cellsUnion_foldl_map_mark_safe (L : List Cell) (K : List Sentence) :
    cellsUnion (L.foldl (fun K c => K.map (fun s => s.mark_safe c)) K) =
      cellsUnion K \ L.toFinset := by
  induction L generalizing K with
  | nil => simp
  | cons c L ih =>
    rw [List.foldl_cons, ih, cellsUnion_map_mark_safe, List.toFinset_cons]
    ext x
    simp only [Finset.mem_sdiff, Finset.mem_erase, Finset.mem_insert]
    tauto

theorem apply_marks_knowledge_cellsUnion (ai : AI) (um us : Finset Cell) :
    cellsUnion (apply_marks ai um us).knowledge =
      cellsUnion ai.knowledge \ (um ∪ us) := by
  unfold apply_marks
  rw [foldl_mark_safe_knowledge, foldl_mark_mine_knowledge]
  rw [cellsUnion_foldl_map_mark_safe, cellsUnion_foldl_map_mark_mine]
  rw [cellList_toFinset, cellList_toFinset]
  ext x
  simp only [Finset.mem_sdiff, Finset.mem_union]
  tauto

theorem known_mines_sub_cells (s : Sentence) : s.known_mines ⊆ s.cells := by
  unfold Sentence.known_mines
  split <;> simp

theorem known_safes_sub_cells (s : Sentence) : s.known_safes ⊆ s.cells := by
  unfold Sentence.known_safes
  split <;> simp

theorem sentence_cells_sub_cellsUnion {s : Sentence} {K : List Sentence}
    (h : s ∈ K) : s.cells ⊆ cellsUnion K := by
  induction K with
  | nil => cases h
  | cons t K ih =>
    unfold cellsUnion at *
    rcases List.mem_cons.mp h with rfl | h2
    · exact Finset.subset_union_left
    · exact (ih h2).trans Finset.subset_union_right

theorem facts_mines_sub_cellsUnion (scan : List Sentence) :
    facts_mines scan ⊆ cellsUnion scan := by
  have aux : ∀ (scan : List Sentence) (acc : Finset Cell),
      scan.foldl (fun acc s => acc ∪ s.known_mines) acc ⊆
        acc ∪ cellsUnion scan := by
    intro scan
    induction scan with
    | nil => intro acc; simp [cellsUnion]
    | cons s K ih =>
      intro acc
      refine (ih _).trans ?_
      unfold cellsUnion
      intro x hx
      rcases Finset.mem_union.mp hx with hx | hx
      · rcases Finset.mem_union.mp hx with hx | hx
        · exact Finset.mem_union_left _ hx
        · exact Finset.mem_union_right _
            (Finset.mem_union_left _ (known_mines_sub_cells s hx))
      · exact Finset.mem_union_right _ (Finset.mem_union_right _ hx)
  simpa [facts_mines] using aux scan ∅

theorem facts_safes_sub_cellsUnion (scan : List Sentence) :
    facts_safes scan ⊆ cellsUnion scan := by
  have aux : ∀ (scan : List Sentence) (acc : Finset Cell),
      scan.foldl (fun acc s => acc ∪ s.known_safes) acc ⊆
        acc ∪ cellsUnion scan := by
    intro scan
    induction scan with
    | nil => intro acc; simp [cellsUnion]
    | cons s K ih =>
      intro acc
      refine (ih _).trans ?_
      unfold cellsUnion
      intro x hx
      rcases Finset.mem_union.mp hx with hx | hx
      · rcases Finset.mem_union.mp hx with hx | hx
        · exact Finset.mem_union_left _ hx
        · exact Finset.mem_union_right _
            (Finset.mem_union_left _ (known_safes_sub_cells s hx))
      · exact Finset.mem_union_right _ (Finset.mem_union_right _ hx)
  simpa [facts_safes] using aux scan ∅

theorem update_knowledge_false {ai ai' : AI} {scan : List Sentence}
    (h : update_knowledge ai scan = (ai', false)) : ai' = ai := by
  unfold update_knowledge at h
  split at h
  · exact (Prod.mk.injEq _ _ _ _ ▸ h).1.symm
  · cases (Prod.mk.injEq _ _ _ _ ▸ h).2

theorem update_knowledge_true {ai ai' : AI} {scan : List Sentence}
    (h : update_knowledge ai scan = (ai', true)) :
    ai' = apply_marks ai (facts_mines scan) (facts_safes scan) ∧
      (facts_mines scan ∪ facts_safes scan).Nonempty := by
  unfold update_knowledge at h
  split at h
  · cases (Prod.mk.injEq _ _ _ _ ▸ h).2
  · next hcard =>
    refine ⟨(Prod.mk.injEq _ _ _ _ ▸ h).1.symm, ?_⟩
    rw [Finset.nonempty_iff_ne_empty]
    intro hemp
    have h1 : facts_mines scan = ∅ :=
      Finset.union_eq_empty.mp hemp |>.1
    have h2 : facts_safes scan = ∅ :=
      Finset.union_eq_empty.mp hemp |>.2
    exact hcard (by rw [h1, h2]; simp)

theorem update_knowledge_true_cellsUnion {ai ai' : AI} {scan : List Sentence}
    (h : update_knowledge ai scan = (ai', true)) :
    cellsUnion ai'.knowledge =
      cellsUnion ai.knowledge \ (facts_mines scan ∪ facts_safes scan) := by
  rw [(update_knowledge_true h).1, apply_marks_knowledge_cellsUnion]

theorem subset_infer_cells_sub {s : Sentence} {K : List Sentence}
    (h : s ∈ subset_infer K) : s.cells ⊆ cellsUnion K := by
  unfold subset_infer at h
  rcases List.mem_flatMap.mp h with ⟨left, _, h2⟩
  rcases List.mem_flatMap.mp h2 with ⟨right, hr, h3⟩
  split at h3
  · rcases List.mem_singleton.mp h3 with rfl
    exact (Finset.sdiff_subset).trans (sentence_cells_sub_cellsUnion hr)
  · cases h3

theorem cellsUnion_append (K1 K2 : List Sentence) :
    cellsUnion (K1 ++ K2) = cellsUnion K1 ∪ cellsUnion K2 := by
  induction K1 with
  | nil => simp [cellsUnion]
  | cons s K ih =>
    unfold cellsUnion at *
    simp [List.foldr_cons, ih, Finset.union_assoc]

theorem cellsUnion_sub_of_forall {N : List Sentence} {X : Finset Cell}
    (h : ∀ s ∈ N, s.cells ⊆ X) : cellsUnion N ⊆ X := by
  induction N with
  | nil => simp [cellsUnion]
  | cons s M ih =>
    unfold cellsUnion at *
    rw [List.foldr_cons]
    exact Finset.union_subset (h s (List.mem_cons_self s M))
      (ih fun t ht => h t (List.mem_cons_of_mem s ht))

theorem cellsUnion_subset_infer_sub (K : List Sentence) :
    cellsUnion (subset_infer K) ⊆ cellsUnion K :=
  cellsUnion_sub_of_forall fun _ hs => subset_infer_cells_sub hs

theorem inference_loop_isSome :
    ∀ (n : ℕ) (ai : AI), (cellsUnion ai.knowledge).card ≤ n →
      (inference_loop (n + 1) ai).isSome = true := by
  intro n
  induction n using Nat.strongRecOn with
  | _ n ih =>
    intro ai hcard
    rcases hA : update_knowledge ai ai.knowledge with ⟨ai1, b1⟩
    cases b1
    · simp [inference_loop, hA]
    · obtain ⟨-, hFne⟩ := update_knowledge_true hA
      have hU1 := update_knowledge_true_cellsUnion hA
      have hFsub : facts_mines ai.knowledge ∪ facts_safes ai.knowledge ⊆
          cellsUnion ai.knowledge :=
        Finset.union_subset (facts_mines_sub_cellsUnion _)
          (facts_safes_sub_cellsUnion _)
      have hlt : (cellsUnion ai1.knowledge).card <
          (cellsUnion ai.knowledge).card := by
        rw [hU1]
        exact Finset.card_lt_card (Finset.sdiff_ssubset hFsub hFne)
      have hU2 : cellsUnion (ai1.knowledge ++ subset_infer ai1.knowledge) =
          cellsUnion ai1.knowledge := by
        rw [cellsUnion_append]
        exact Finset.union_eq_left.mpr (cellsUnion_subset_infer_sub _)
      rcases hB : update_knowledge
          { ai1 with knowledge := ai1.knowledge ++ subset_infer ai1.knowledge }
          (subset_infer ai1.knowledge) with ⟨ai3, b2⟩
      cases b2
      · simp [inference_loop, hA, hB]
      · have hU3 := update_knowledge_true_cellsUnion hB
        have hc3 : (cellsUnion ai3.knowledge).card ≤
            (cellsUnion ai1.knowledge).card := by
          rw [hU3]
          calc (cellsUnion ({ ai1 with knowledge :=
                  ai1.knowledge ++ subset_infer ai1.knowledge } : AI).knowledge \
                (facts_mines (subset_infer ai1.knowledge) ∪
                 facts_safes (subset_infer ai1.knowledge))).card
              ≤ (cellsUnion ({ ai1 with knowledge :=
                  ai1.knowledge ++ subset_infer ai1.knowledge } : AI).knowledge).card :=
                Finset.card_le_card Finset.sdiff_subset
            _ = (cellsUnion ai1.knowledge).card := by rw [hU2]
        obtain ⟨m, rfl⟩ : ∃ m, n = m + 1 := ⟨n - 1, by omega⟩
        have hrec := ih m (by omega) ai3 (by omega)
        simp only [inference_loop, hA, hB]
        exact hrec

/-- C8: `add_knowledge` always terminates.  The `while True` loop is
embedded as the fuel recursion `inference_loop`; this theorem shows that
for every state, cell and count the fuel
`(cellsUnion knowledge).card + 1` — the undetermined-slot bound of the
spec's termination argument — always suffices, i.e. `add_knowledge` never
exhausts its fuel and always returns a state. -/
theorem add_knowledge_terminates (ai : AI) (cell : Cell) (count : ℤ) :
    (add_knowledge ai cell count).isSome = true := by
  unfold add_knowledge
  exact inference_loop_isSome _ _ (le_refl _)

/-! ## Soundness of the knowledge base w.r.t. an actual board (C7) -/

/-- A sentence is true of a board (mine set) when exactly `count` of its
cells are mines. -/
def sentence_true (board : Finset Cell) (s : Sentence) : Prop :=
  ((s.cells ∩ board).card : ℤ) = s.count

/-- The soundness invariant: every sentence is true of the board, every
proven mine is a real mine, and every proven safe / every revealed cell is
a real non-mine. -/
def sound (board : Finset Cell) (ai : AI) : Prop :=
  (∀ s ∈ ai.knowledge, sentence_true board s) ∧
  ai.mines ⊆ board ∧
  (∀ c ∈ ai.safes, c ∉ board) ∧
  (∀ c ∈ ai.moves_made, c ∉ board)

theorem sentence_true_mark_safe {board : Finset Cell} {s : Sentence} {c : Cell}
    (hcb : c ∉ board) (h : sentence_true board s) :
    sentence_true board (s.mark_safe c) := by
  unfold sentence_true at *
  by_cases hc : c ∈ s.cells
  · simp only [Sentence.mark_safe, hc, if_true]
    have key : s.cells.erase c ∩ board = s.cells ∩ board := by
      ext x
      simp only [Finset.mem_inter, Finset.mem_erase]
      constructor
      · rintro ⟨⟨-, h1⟩, h2⟩; exact ⟨h1, h2⟩
      · rintro ⟨h1, h2⟩; exact ⟨⟨fun he => hcb (he ▸ h2), h1⟩, h2⟩
    rw [key]
    exact h
  · simp only [Sentence.mark_safe, hc, if_false]
    exact h

theorem sentence_true_mark_mine {board : Finset Cell} {s : Sentence} {c : Cell}
    (hcb : c ∈ board) (h : sentence_true board s) :
    sentence_true board (s.mark_mine c) := by
  unfold sentence_true at *
  by_cases hc : c ∈ s.cells
  · simp only [Sentence.mark_mine, hc, if_true]
    have key : s.cells.erase c ∩ board = (s.cells ∩ board).erase c := by
      ext x
      simp only [Finset.mem_inter, Finset.mem_erase]
      tauto
    have hmem : c ∈ s.cells ∩ board := Finset.mem_inter.mpr ⟨hc, hcb⟩
    have hpos : 1 ≤ (s.cells ∩ board).card := Finset.card_pos.mpr ⟨c, hmem⟩
    rw [key, Finset.card_erase_of_mem hmem]
    push_cast [Nat.cast_sub hpos] at *
    omega
  · simp only [Sentence.mark_mine, hc, if_false]
    exact h

theorem known_mines_true_sub {board : Finset Cell} {s : Sentence}
    (h : sentence_true board s) : s.known_mines ⊆ board := by
  unfold Sentence.known_mines
  split
  · next heq =>
    unfold sentence_true at h
    have hcard : (s.cells ∩ board).card = s.cells.card := by
      rw [heq] at h
      exact_mod_cast h
    have : s.cells ∩ board = s.cells :=
      Finset.eq_of_subset_of_card_le Finset.inter_subset_left (le_of_eq hcard.symm)
    exact Finset.inter_eq_left.mp this
  · simp

theorem known_safes_true_disj {board : Finset Cell} {s : Sentence}
    (h : sentence_true board s) : ∀ c ∈ s.known_safes, c ∉ board := by
  unfold Sentence.known_safes
  split
  · next heq =>
    unfold sentence_true at h
    rw [heq] at h
    have hcard : (s.cells ∩ board).card = 0 := by exact_mod_cast h
    have hemp : s.cells ∩ board = ∅ := Finset.card_eq_zero.mp hcard
    intro c hc hcb
    exact Finset.eq_empty_iff_forall_not_mem.mp hemp c
      (Finset.mem_inter.mpr ⟨hc, hcb⟩)
  · simp

theorem foldl_union_pred {Q : Cell → Prop} {f : Sentence → Finset Cell} :
    ∀ (scan : List Sentence) (acc : Finset Cell),
      (∀ s ∈ scan, ∀ c ∈ f s, Q c) → (∀ c ∈ acc, Q c) →
      ∀ c ∈ scan.foldl (fun a s => a ∪ f s) acc, Q c := by
  intro scan
  induction scan with
  | nil => intro acc _ hacc; simpa using hacc
  | cons s K ih =>
    intro acc hscan hacc
    rw [List.foldl_cons]
    refine ih (acc ∪ f s) (fun t ht => hscan t (List.mem_cons_of_mem s ht)) ?_
    intro c hc
    rcases Finset.mem_union.mp hc with hc | hc
    · exact hacc c hc
    · exact hscan s (List.mem_cons_self s K) c hc

theorem facts_mines_sub_board {board : Finset Cell} {scan : List Sentence}
    (h : ∀ s ∈ scan, sentence_true board s) : facts_mines scan ⊆ board := by
  intro c hc
  exact foldl_union_pred scan ∅
    (fun s hs => fun c hc => known_mines_true_sub (h s hs) hc)
    (by simp) c hc

theorem facts_safes_not_board {board : Finset Cell} {scan : List Sentence}
    (h : ∀ s ∈ scan, sentence_true board s) :
    ∀ c ∈ facts_safes scan, c ∉ board := by
  exact foldl_union_pred scan ∅
    (fun s hs => known_safes_true_disj (h s hs))
    (by simp)

theorem sound_mark_mine {board : Finset Cell} {ai : AI} {c : Cell}
    (hcb : c ∈ board) (h : sound board ai) : sound board (ai.mark_mine c) := by
  obtain ⟨hk, hm, hs, hv⟩ := h
  refine ⟨?_, ?_, hs, hv⟩
  · intro s hs2
    rcases List.mem_map.mp hs2 with ⟨t, ht, rfl⟩
    exact sentence_true_mark_mine hcb (hk t ht)
  · intro x hx
    rcases Finset.mem_insert.mp hx with rfl | hx
    · exact hcb
    · exact hm hx

theorem sound_mark_safe {board : Finset Cell} {ai : AI} {c : Cell}
    (hcb : c ∉ board) (h : sound board ai) : sound board (ai.mark_safe c) := by
  obtain ⟨hk, hm, hs, hv⟩ := h
  refine ⟨?_, hm, ?_, hv⟩
  · intro s hs2
    rcases List.mem_map.mp hs2 with ⟨t, ht, rfl⟩
    exact sentence_true_mark_safe hcb (hk t ht)
  · intro x hx
    rcases Finset.mem_insert.mp hx with rfl | hx
    · exact hcb
    · exact hs x hx

theorem sound_foldl_mark_mine {board : Finset Cell} :
    ∀ (L : List Cell) (ai : AI), (∀ c ∈ L, c ∈ board) → sound board ai →
      sound board (L.foldl AI.mark_mine ai) := by
  intro L
  induction L with
  | nil => intro ai _ h; exact h
  | cons c L ih =>
    intro ai hL h
    rw [List.foldl_cons]
    exact ih _ (fun d hd => hL d (List.mem_cons_of_mem c hd))
      (sound_mark_mine (hL c (List.mem_cons_self c L)) h)

theorem sound_foldl_mark_safe {board : Finset Cell} :
    ∀ (L : List Cell) (ai : AI), (∀ c ∈ L, c ∉ board) → sound board ai →
      sound board (L.foldl AI.mark_safe ai) := by
  intro L
  induction L with
  | nil => intro ai _ h; exact h
  | cons c L ih =>
    intro ai hL h
    rw [List.foldl_cons]
    exact ih _ (fun d hd => hL d (List.mem_cons_of_mem c hd))
      (sound_mark_safe (hL c (List.mem_cons_self c L)) h)

theorem sound_apply_marks {board : Finset Cell} {ai : AI} {um us : Finset Cell}
    (hum : um ⊆ board) (hus : ∀ c ∈ us, c ∉ board) (h : sound board ai) :
    sound board (apply_marks ai um us) := by
  obtain ⟨hk, hm, hs, hv⟩ := h
  have h1 : sound board
      { ai with mines := ai.mines ∪ um, safes := ai.safes ∪ us } := by
    refine ⟨hk, Finset.union_subset hm hum, ?_, hv⟩
    intro c hc
    rcases Finset.mem_union.mp hc with hc | hc
    · exact hs c hc
    · exact hus c hc
  unfold apply_marks
  exact sound_foldl_mark_safe _ _ (fun c hc => hus c (mem_cellList.mp hc))
    (sound_foldl_mark_mine _ _ (fun c hc => hum (mem_cellList.mp hc)) h1)

theorem sound_update_knowledge {board : Finset Cell} {ai ai' : AI}
    {scan : List Sentence} {b : Bool}
    (hscan : ∀ s ∈ scan, sentence_true board s) (h : sound board ai)
    (hu : update_knowledge ai scan = (ai', b)) : sound board ai' := by
  cases b
  · rw [update_knowledge_false hu]; exact h
  · rw [(update_knowledge_true hu).1]
    exact sound_apply_marks (facts_mines_sub_board hscan)
      (facts_safes_not_board hscan) h

theorem subset_infer_true {board : Finset Cell} {K : List Sentence}
    (hK : ∀ t ∈ K, sentence_true board t) :
    ∀ s ∈ subset_infer K, sentence_true board s := by
  intro s hs
  unfold subset_infer at hs
  rcases List.mem_flatMap.mp hs with ⟨left, hl, h2⟩
  rcases List.mem_flatMap.mp h2 with ⟨right, hr, h3⟩
  split at h3
  · next hss =>
    rcases List.mem_singleton.mp h3 with rfl
    have hlt := hK left hl
    have hrt := hK right hr
    unfold sentence_true at *
    have key : (right.cells \ left.cells) ∩ board =
        (right.cells ∩ board) \ (left.cells ∩ board) := by
      ext x
      simp only [Finset.mem_inter, Finset.mem_sdiff]
      tauto
    have hsub : left.cells ∩ board ⊆ right.cells ∩ board :=
      Finset.inter_subset_inter_right hss.1
    have hle : (left.cells ∩ board).card ≤ (right.cells ∩ board).card :=
      Finset.card_le_card hsub
    rw [key, Finset.card_sdiff hsub]
    push_cast [Nat.cast_sub hle]
    omega
  · cases h3

theorem sound_inference_loop {board : Finset Cell} :
    ∀ (fuel : ℕ) (ai ai' : AI), sound board ai →
      inference_loop fuel ai = some ai' → sound board ai' := by
  intro fuel
  induction fuel with
  | zero => intro ai ai' _ h; cases h
  | succ n ih =>
    intro ai ai' hsound hloop
    rcases hA : update_knowledge ai ai.knowledge with ⟨ai1, b1⟩
    have hs1 : sound board ai1 :=
      sound_update_knowledge hsound.1 hsound hA
    cases b1
    · simp only [inference_loop, hA] at hloop
      rw [← Option.some_inj.mp hloop]
      exact hs1
    · have hnews : ∀ s ∈ subset_infer ai1.knowledge, sentence_true board s :=
        subset_infer_true hs1.1
      have hs2 : sound board
          { ai1 with knowledge := ai1.knowledge ++ subset_infer ai1.knowledge } := by
        obtain ⟨hk, hm, hs, hv⟩ := hs1
        refine ⟨?_, hm, hs, hv⟩
        intro s hs3
        rcases List.mem_append.mp hs3 with h | h
        · exact hk s h
        · exact hnews s h
      rcases hB : update_knowledge
          { ai1 with knowledge := ai1.knowledge ++ subset_infer ai1.knowledge }
          (subset_infer ai1.knowledge) with ⟨ai3, b2⟩
      have hs3 : sound board ai3 := sound_update_knowledge hnews hs2 hB
      cases b2
      · simp only [inference_loop, hA, hB] at hloop
        rw [← Option.some_inj.mp hloop]
        exact hs3
      · simp only [inference_loop, hA, hB] at hloop
        exact ih ai3 ai' hs3 hloop

theorem adjacent_cells_record_move (ai : AI) (cell x : Cell) :
    adjacent_cells (record_move ai cell) x = adjacent_cells ai x := rfl

theorem sound_record_move {board : Finset Cell} {ai : AI} {cell : Cell}
    (hcb : cell ∉ board) (h : sound board ai) :
    sound board (record_move ai cell) := by
  obtain ⟨hk, hm, hs, hv⟩ := h
  refine ⟨?_, hm, ?_, ?_⟩
  · intro s hs2
    rcases List.mem_map.mp hs2 with ⟨t, ht, rfl⟩
    exact sentence_true_mark_safe hcb (hk t ht)
  · intro c hc
    rcases Finset.mem_insert.mp hc with rfl | hc
    · exact hcb
    · exact hs c hc
  · intro c hc
    rcases Finset.mem_insert.mp hc with rfl | hc
    · exact hcb
    · exact hv c hc

theorem new_sentence_true {board : Finset Cell} {ai : AI} {cell : Cell}
    (hcb : cell ∉ board) (h : sound board ai) :
    sentence_true board
      ⟨new_sentence_cells (record_move ai cell) cell,
        true_count ai board cell⟩ := by
  have hmv : ∀ c ∈ (record_move ai cell).moves_made, c ∉ board :=
    (sound_record_move hcb h).2.2.2
  have key : new_sentence_cells (record_move ai cell) cell ∩ board =
      adjacent_cells ai cell ∩ board := by
    unfold new_sentence_cells
    rw [adjacent_cells_record_move]
    ext x
    simp only [Finset.mem_inter, Finset.mem_sdiff]
    constructor
    · rintro ⟨⟨h1, -⟩, h2⟩; exact ⟨h1, h2⟩
    · rintro ⟨h1, h2⟩
      exact ⟨⟨h1, fun hx => hmv x hx h2⟩, h2⟩
  unfold sentence_true true_count
  simp only []
  rw [key]

theorem sound_add_knowledge {board : Finset Cell} {ai ai' : AI} {cell : Cell}
    {count : ℤ} (hcb : cell ∉ board) (hcount : count = true_count ai board cell)
    (h : sound board ai) (hadd : add_knowledge ai cell count = some ai') :
    sound board ai' := by
  unfold add_knowledge at hadd
  refine sound_inference_loop _ _ _ ?_ hadd
  have h2 : sound board (record_move ai cell) := sound_record_move hcb h
  obtain ⟨hk, hm, hs, hv⟩ := h2
  refine ⟨?_, hm, hs, hv⟩
  intro s hs2
  rcases List.mem_append.mp hs2 with h3 | h3
  · exact hk s h3
  · rcases List.mem_singleton.mp h3 with rfl
    rw [hcount]
    exact new_sentence_true hcb h

/-- Growth of the certain-fact sets between two states. -/
def state_le (a b : AI) : Prop := a.mines ⊆ b.mines ∧ a.safes ⊆ b.safes

theorem state_le_refl (a : AI) : state_le a a :=
  ⟨Finset.Subset.refl _, Finset.Subset.refl _⟩

theorem state_le_trans {a b c : AI} (h1 : state_le a b) (h2 : state_le b c) :
    state_le a c :=
  ⟨h1.1.trans h2.1, h1.2.trans h2.2⟩

theorem state_le_mark_mine (ai : AI) (c : Cell) : state_le ai (ai.mark_mine c) :=
  ⟨Finset.subset_insert _ _, Finset.Subset.refl _⟩

theorem state_le_mark_safe (ai : AI) (c : Cell) : state_le ai (ai.mark_safe c) :=
  ⟨Finset.Subset.refl _, Finset.subset_insert _ _⟩

theorem state_le_foldl_mark_mine :
    ∀ (L : List Cell) (ai : AI), state_le ai (L.foldl AI.mark_mine ai) := by
  intro L
  induction L with
  | nil => intro ai; exact state_le_refl ai
  | cons c L ih =>
    intro ai
    rw [List.foldl_cons]
    exact state_le_trans (state_le_mark_mine ai c) (ih _)

theorem state_le_foldl_mark_safe :
    ∀ (L : List Cell) (ai : AI), state_le ai (L.foldl AI.mark_safe ai) := by
  intro L
  induction L with
  | nil => intro ai; exact state_le_refl ai
  | cons c L ih =>
    intro ai
    rw [List.foldl_cons]
    exact state_le_trans (state_le_mark_safe ai c) (ih _)

theorem state_le_apply_marks (ai : AI) (um us : Finset Cell) :
    state_le ai (apply_marks ai um us) := by
  unfold apply_marks
  refine state_le_trans (state_le_trans
    (⟨Finset.subset_union_left, Finset.subset_union_left⟩ :
      state_le ai { ai with mines := ai.mines ∪ um, safes := ai.safes ∪ us })
    (state_le_foldl_mark_mine _ _)) (state_le_foldl_mark_safe _ _)

theorem state_le_update_knowledge {ai ai' : AI} {scan : List Sentence}
    {b : Bool} (h : update_knowledge ai scan = (ai', b)) : state_le ai ai' := by
  cases b
  · rw [update_knowledge_false h]; exact state_le_refl ai
  · rw [(update_knowledge_true h).1]; exact state_le_apply_marks _ _ _

theorem state_le_inference_loop :
    ∀ (fuel : ℕ) (ai ai' : AI), inference_loop fuel ai = some ai' →
      state_le ai ai' := by
  intro fuel
  induction fuel with
  | zero => intro ai ai' h; cases h
  | succ n ih =>
    intro ai ai' hloop
    rcases hA : update_knowledge ai ai.knowledge with ⟨ai1, b1⟩
    have h1 : state_le ai ai1 := state_le_update_knowledge hA
    cases b1
    · simp only [inference_loop, hA] at hloop
      rw [← Option.some_inj.mp hloop]
      exact h1
    · rcases hB : update_knowledge
          { ai1 with knowledge := ai1.knowledge ++ subset_infer ai1.knowledge }
          (subset_infer ai1.knowledge) with ⟨ai3, b2⟩
      have h2 : state_le ai1 ai3 := by
        have := state_le_update_knowledge hB
        exact this
      cases b2
      · simp only [inference_loop, hA, hB] at hloop
        rw [← Option.some_inj.mp hloop]
        exact state_le_trans h1 h2
      · simp only [inference_loop, hA, hB] at hloop
        exact state_le_trans (state_le_trans h1 h2) (ih ai3 ai' hloop)

theorem state_le_add_knowledge {ai ai' : AI} {cell : Cell} {count : ℤ}
    (h : add_knowledge ai cell count = some ai') : state_le ai ai' := by
  unfold add_knowledge at h
  refine state_le_trans ?_ (state_le_inference_loop _ _ _ h)
  exact ⟨Finset.Subset.refl _, Finset.subset_insert _ _⟩

theorem state_le_run_calls :
    ∀ (l : List (Cell × ℤ)) (ai ai' : AI), run_calls ai l = some ai' →
      state_le ai ai' := by
  intro l
  induction l with
  | nil => intro ai ai' h; rw [← Option.some_inj.mp h]; exact state_le_refl ai
  | cons p l ih =>
    intro ai ai' h
    rcases p with ⟨c, n⟩
    unfold run_calls at h
    rcases hadd : add_knowledge ai c n with - | ai2
    · rw [hadd] at h; cases h
    · rw [hadd] at h
      exact state_le_trans (state_le_add_knowledge hadd) (ih ai2 ai' h)

theorem sound_run_calls {board : Finset Cell} :
    ∀ (l : List (Cell × ℤ)) (ai ai' : AI), sound board ai →
      accurate_calls board ai l = true → run_calls ai l = some ai' →
      sound board ai' := by
  intro l
  induction l with
  | nil =>
    intro ai ai' h _ hr
    rw [← Option.some_inj.mp hr]
    exact h
  | cons p l ih =>
    intro ai ai' h hacc hr
    rcases p with ⟨c, n⟩
    unfold run_calls at hr
    rcases hadd : add_knowledge ai c n with - | ai2
    · rw [hadd] at hr; cases hr
    · rw [hadd] at hr
      unfold accurate_calls at hacc
      rw [hadd] at hacc
      simp only [Bool.and_eq_true, decide_eq_true_eq] at hacc
      obtain ⟨⟨⟨hb, -⟩, hn⟩, htail⟩ := hacc
      exact ih ai2 ai' (sound_add_knowledge hb hn h hadd) htail hr

theorem run_calls_append :
    ∀ (l1 l2 : List (Cell × ℤ)) (ai : AI),
      run_calls ai (l1 ++ l2) =
        (run_calls ai l1).bind (fun S => run_calls S l2) := by
  intro l1
  induction l1 with
  | nil => intro l2 ai; rfl
  | cons p l ih =>
    intro l2 ai
    rcases p with ⟨c, n⟩
    rcases hadd : add_knowledge ai c n with - | ai2
    · simp [run_calls, hadd]
    · simp [run_calls, hadd, ih]

theorem accurate_calls_front (board : Finset Cell) :
    ∀ (l1 l2 : List (Cell × ℤ)) (ai : AI),
      accurate_calls board ai (l1 ++ l2) = true →
      accurate_calls board ai l1 = true := by
  intro l1
  induction l1 with
  | nil => intro l2 ai _; rfl
  | cons p l ih =>
    intro l2 ai hacc
    rcases p with ⟨c, n⟩
    simp only [List.cons_append, accurate_calls] at hacc ⊢
    rcases hadd : add_knowledge ai c n with - | ai2 <;> rw [hadd] at hacc <;>
      simp only [Bool.and_eq_true, decide_eq_true_eq, List.append_eq] at hacc ⊢
    · exact hacc
    · exact ⟨hacc.1, ih l2 ai2 hacc.2⟩

/-- C7: across any sequence of `add_knowledge` calls satisfying the caller
contract relative to an actual mine set `board` (each revealed cell is not
a mine, was not revealed before, and carries its accurate neighbour-mine
count — `accurate_calls`), the `mines` and `safes` sets grow monotonically
from any intermediate state (`l1` a prefix of the whole call list) to the
final state, and are disjoint at every such state. -/
theorem mines_safes_monotone_disjoint
    (h w : ℤ) (board : Finset Cell) (l1 l2 : List (Cell × ℤ)) (S1 S2 : AI)
    (hacc : accurate_calls board (AI.init h w) (l1 ++ l2) = true)
    (h1 : run_calls (AI.init h w) l1 = some S1)
    (h2 : run_calls (AI.init h w) (l1 ++ l2) = some S2) :
    S1.mines ⊆ S2.mines ∧ S1.safes ⊆ S2.safes ∧
    Disjoint S1.mines S1.safes ∧ Disjoint S2.mines S2.safes := by
  have hinit : sound board (AI.init h w) := by
    refine ⟨?_, ?_, ?_, ?_⟩ <;> simp [AI.init]
  have hs1 : sound board S1 :=
    sound_run_calls l1 _ _ hinit (accurate_calls_front board l1 l2 _ hacc) h1
  have hs2 : sound board S2 := sound_run_calls (l1 ++ l2) _ _ hinit hacc h2
  have hmono : state_le S1 S2 := by
    have happ := run_calls_append l1 l2 (AI.init h w)
    rw [h2, h1] at happ
    exact state_le_run_calls l2 S1 S2 happ.symm
  have hd1 : Disjoint S1.mines S1.safes := by
    rw [Finset.disjoint_left]
    intro x hm hs
    exact hs1.2.2.1 x hs (hs1.2.1 hm)
  have hd2 : Disjoint S2.mines S2.safes := by
    rw [Finset.disjoint_left]
    intro x hm hs
    exact hs2.2.2.1 x hs (hs2.2.1 hm)
  exact ⟨hmono.1, hmono.2, hd1, hd2⟩

/-- Witness for C7: empty board of size 1×1, empty prefix, one accurate
call `add_knowledge((0,0), 0)`. -/
theorem mines_safes_monotone_disjoint_witness :
    accurate_calls (∅ : Finset Cell) (AI.init 1 1) ([] ++ [((0, 0), 0)]) = true ∧
    run_calls (AI.init 1 1) [] = some (AI.init 1 1) ∧
    run_calls (AI.init 1 1) ([] ++ [((0, 0), 0)]) =
      some ⟨1, 1, {(0, 0)}, ∅, {(0, 0)}, [⟨∅, 0⟩]⟩ ∧
    ((AI.init 1 1).mines ⊆ (⟨1, 1, {(0, 0)}, ∅, {(0, 0)}, [⟨∅, 0⟩]⟩ : AI).mines ∧
     (AI.init 1 1).safes ⊆ (⟨1, 1, {(0, 0)}, ∅, {(0, 0)}, [⟨∅, 0⟩]⟩ : AI).safes ∧
     Disjoint (AI.init 1 1).mines (AI.init 1 1).safes ∧
     Disjoint (⟨1, 1, {(0, 0)}, ∅, {(0, 0)}, [⟨∅, 0⟩]⟩ : AI).mines
       (⟨1, 1, {(0, 0)}, ∅, {(0, 0)}, [⟨∅, 0⟩]⟩ : AI).safes) :=
  ⟨by decide, by decide, by decide,
   mines_safes_monotone_disjoint 1 1 ∅ [] [((0, 0), 0)] (AI.init 1 1)
     ⟨1, 1, {(0, 0)}, ∅, {(0, 0)}, [⟨∅, 0⟩]⟩ (by decide) (by decide) (by decide)⟩
